import Mathlib

/-!
# Verification of the copilot-review-agent computational core

A shallow embedding, in Lean 4, of the three algorithmic components of the
branch-review tool: the unified-diff parser (src/git.ts, parseDiff), the
priority chunker and context-window builder (src/chunker.ts), and the
finding deduplicator (extension source, deduplicateFindings).

Conventions of the embedding:
* JavaScript strings are modeled as Lean `String`/`List Char`; all string
  scanning is done on `List Char` at ASCII fidelity (the inputs the tool
  consumes are diff text and source paths).
* JavaScript numbers holding line counts are modeled as `Nat` (parseInt of
  digit runs) and window coordinates as `Int` (the source subtracts before
  clamping).  `Math.ceil(n / 3.5)` is modeled exactly over `Nat` as
  `(2*n + 6) / 7`.  The similarity threshold comparison
  `intersection/union >= 0.6` is modeled exactly over `ℚ`.
* The glob matcher (`minimatch`) is, per the system design, an external
  path-exclusion collaborator; `parseDiff` is therefore parameterized by a
  matcher function `String → String → Bool` which it uses unchanged.
* JavaScript `Array.prototype.sort` is stable; the priority sort is modeled
  by a stable insertion sort on the comparator key `filePriority`.
-/

namespace SelfReview

/-! ## Shared character/string utilities -/

/-- Is `c` one of the characters `[a-z0-9]` (the character class used both
by the title normalizer and by the path tokenizer, after lower-casing)? -/
def isAlnumLower (c : Char) : Bool :=
  (decide ('a' ≤ c) && decide (c ≤ 'z')) || (decide ('0' ≤ c) && decide (c ≤ '9'))

/-- Maximal runs of `[a-z0-9]` characters.  `alnumRunsAux cs acc` scans `cs`
with `acc` holding the (reversed) current run.  This is the exact effect of
`.replace(/[^a-z0-9]+/g, ' ').trim().split(/\s+/).filter(Boolean)` and of
`.split(/[^a-z0-9]+/).filter(Boolean)`. -/
def alnumRunsAux : List Char → List Char → List (List Char)
  | [], acc => if acc.isEmpty then [] else [acc.reverse]
  | c :: rest, acc =>
    if isAlnumLower c then alnumRunsAux rest (c :: acc)
    else if acc.isEmpty then alnumRunsAux rest []
    else acc.reverse :: alnumRunsAux rest []

/-- JavaScript `s.split(sep)` for a single-character separator: every
occurrence of `sep` splits, empty pieces are kept. -/
def splitOnCharAux (sep : Char) : List Char → List Char → List (List Char)
  | [], acc => [acc.reverse]
  | c :: rest, acc =>
    if c = sep then acc.reverse :: splitOnCharAux sep rest []
    else splitOnCharAux sep rest (c :: acc)

/-- JavaScript `s.split('\n')`. -/
def splitLines (s : List Char) : List (List Char) :=
  splitOnCharAux '\n' s []

/-- JavaScript `String.prototype.trim` (ASCII whitespace). -/
def jsTrim (s : List Char) : List Char :=
  ((s.dropWhile Char.isWhitespace).reverse.dropWhile Char.isWhitespace).reverse

/-- First index at which `pat` occurs as a contiguous sublist of `s`
(JavaScript `indexOf` semantics for a nonempty pattern). -/
def findSub (pat : List Char) : List Char → Option Nat
  | [] => if pat.isEmpty then some 0 else none
  | s@(_ :: rest) =>
    if pat.isPrefixOf s then some 0
    else (findSub pat rest).map (· + 1)

/-- JavaScript `s.includes(pat)`. -/
def containsSub (pat s : List Char) : Bool :=
  (findSub pat s).isSome

/-! ## Finding deduplicator (deduplicateFindings) -/

/-- One review finding (src/types.ts, `ReviewFinding`).  Line numbers are
1-based and inclusive. -/
structure ReviewFinding where
  id : String
  file : String
  startLine : Int
  endLine : Int
  severity : String
  title : String
  description : String
  suggestedFix : Option String
  category : String
  status : String
deriving Repr, DecidableEq

/-- `normalizeTitleTokens`: lower-case, strip non-alphanumerics, tokenize.
In the source: `text.toLowerCase().replace(/[^a-z0-9]+/g, ' ').trim()
.split(/\s+/).filter(Boolean)`, i.e. the maximal `[a-z0-9]` runs of the
lower-cased text. -/
def normalizeTitleTokens (text : String) : List String :=
  (alnumRunsAux (text.data.map Char.toLower) []).map String.mk

/-- `titleSimilarity`: Jaccard index of the two token lists viewed as sets;
0 when either list is empty (and defensively when the union is empty). -/
def titleSimilarity (a b : List String) : ℚ :=
  if a.isEmpty || b.isEmpty then 0
  else
    let aSet := a.dedup
    let bSet := b.dedup
    let inter := (aSet.filter (fun t => bSet.contains t)).length
    let union := aSet.length + bSet.length - inter
    if union = 0 then 0 else (inter : ℚ) / (union : ℚ)

/-- `rangesOverlap(aStart, aEnd, bStart, bEnd)`. -/
def rangesOverlap (aStart aEnd bStart bEnd : Int) : Bool :=
  decide (aStart ≤ bEnd) && decide (aEnd ≥ bStart)

/-- The exact-dedup key string
`` `${f.file}:${f.startLine}:${f.endLine}:${normalizedTitle}` ``. -/
def dedupKey (f : ReviewFinding) : String :=
  f.file ++ ":" ++ toString f.startLine ++ ":" ++ toString f.endLine ++ ":"
    ++ String.intercalate " " (normalizeTitleTokens f.title)

/-- The near-duplicate test applied to an already-accepted finding `r` and
the incoming finding `f`: same file, overlapping line range, and title
similarity at least the 0.6 threshold. -/
def nearDuplicate (r f : ReviewFinding) : Bool :=
  (r.file == f.file)
    && rangesOverlap r.startLine r.endLine f.startLine f.endLine
    && decide (titleSimilarity (normalizeTitleTokens r.title) (normalizeTitleTokens f.title) ≥ 0.6)

/-- One iteration of the `deduplicateFindings` loop.  In the source the
`seen` set holds exactly the keys of the accepted findings (`seen.add` and
`result.push` happen together), so the loop state is just the accepted
list. -/
def dedupeStep (result : List ReviewFinding) (f : ReviewFinding) : List ReviewFinding :=
  if (result.map dedupKey).contains (dedupKey f) then result
  else if result.any (fun r => nearDuplicate r f) then result
  else result ++ [f]

/-- `deduplicateFindings` (finding deduplicator, order-preserving). -/
def deduplicateFindings (findings : List ReviewFinding) : List ReviewFinding :=
  findings.foldl dedupeStep []

/-- `acceptedFrom acc t` holds when, starting from accepted list `acc`,
each element of `t` in turn passes both dedup checks and is appended. -/
def acceptedFrom : List ReviewFinding → List ReviewFinding → Prop
  | _, [] => True
  | acc, f :: t => dedupeStep acc f = acc ++ [f] ∧ acceptedFrom (acc ++ [f]) t

/-! ## Diff parser (src/git.ts, parseDiff) -/

/-- A parsed diff hunk (src/types.ts, `DiffHunk`).  `addedLines` are the
1-based line numbers recorded for lines with the `+` marker; per the type's
documentation `removedLines` should be the removed lines in the *old*
file's numbering. -/
structure DiffHunk where
  file : String
  oldStart : Nat
  oldLines : Nat
  newStart : Nat
  newLines : Nat
  header : String
  content : String
  addedLines : List Nat
  removedLines : List Nat
deriving Repr, DecidableEq

/-- A file with its diff hunks (src/types.ts, `DiffFile`). -/
structure DiffFile where
  path : String
  hunks : List DiffHunk
  fullContent : Option String
  isNew : Bool
  isDeleted : Bool
  isBinary : Bool
deriving Repr, DecidableEq

/-- Splitting `rawDiff.split(/^diff --git /m)`: the pieces of the text
between line-start occurrences of the marker text, the marker itself being
removed.  `atStart` tracks whether the current position is at the start of
a line (position 0 or directly after a newline). -/
def splitFileDiffsAux : List Char → Bool → List Char → List (List Char)
  | [], _, acc => [acc.reverse]
  | 'd' :: 'i' :: 'f' :: 'f' :: ' ' :: '-' :: '-' :: 'g' :: 'i' :: 't' :: ' ' :: rest,
      true, acc =>
    acc.reverse :: splitFileDiffsAux rest false []
  | c :: rest, _, acc =>
    splitFileDiffsAux rest (c = '\n') (c :: acc)

/-- The header-line match `headerLine.match(/a\/(.*?) b\/(.*)/)`, returning
group 2 (the new-side path): the regex matches at the leftmost position
carrying `a/` that is followed (at distance ≥ 0) by an occurrence of
`" b/"`; the lazy first group makes the *first* such occurrence the split
point, and group 2 greedily takes the rest of the line. -/
def matchPathsAB : List Char → Option (List Char)
  | [] => none
  | c :: rest =>
    if "a/".data.isPrefixOf (c :: rest) then
      match findSub " b/".data ((c :: rest).drop 2) with
      | some j => some ((c :: rest).drop (2 + j + 3))
      | none => matchPathsAB rest
    else matchPathsAB rest

/-- `parseInt` on a nonempty run of decimal digits. -/
def digitsToNat (ds : List Char) : Nat :=
  ds.foldl (fun n c => n * 10 + (c.toNat - 48)) 0

/-- The hunk-header match
`line.match(/^@@ -(\d+)(?:,(\d+))? \+(\d+)(?:,(\d+))? @@(.*)/)`,
returning `(oldStart, oldLines, newStart, newLines, group5)`.
A missing `,len` group defaults the length to 1 (`parseInt(m[k] || '1')`).
When a comma is present it must be followed by at least one digit and the
required following literal, otherwise the whole match fails (regex
backtracking over `\d+` cannot rescue it since no shorter digit run is
followed by the required literal). -/
def parseHunkHeader (l : List Char) : Option (Nat × Nat × Nat × Nat × List Char) :=
  if "@@ -".data.isPrefixOf l then
    let s1 := l.drop 4
    let d1 := s1.takeWhile Char.isDigit
    let r1 := s1.dropWhile Char.isDigit
    if d1.isEmpty then none else
    let part2 : Option (Nat × List Char) :=
      match r1 with
      | ',' :: t =>
        let d2 := t.takeWhile Char.isDigit
        let t2 := t.dropWhile Char.isDigit
        if d2.isEmpty then none else some (digitsToNat d2, t2)
      | _ => some (1, r1)
    match part2 with
    | none => none
    | some (oldLines, r2) =>
      if " +".data.isPrefixOf r2 then
        let s3 := r2.drop 2
        let d3 := s3.takeWhile Char.isDigit
        let r3 := s3.dropWhile Char.isDigit
        if d3.isEmpty then none else
        let part4 : Option (Nat × List Char) :=
          match r3 with
          | ',' :: t =>
            let d4 := t.takeWhile Char.isDigit
            let t4 := t.dropWhile Char.isDigit
            if d4.isEmpty then none else some (digitsToNat d4, t4)
          | _ => some (1, r3)
        match part4 with
        | none => none
        | some (newLines, r4) =>
          if " @@".data.isPrefixOf r4 then
            some (digitsToNat d1, oldLines, digitsToNat d3, newLines, r4.drop 3)
          else none
      else none
  else none

/-- The inner lookahead of `parseDiff` that records added/removed line
numbers: starting at cursor `newStart`, walk the lines following a hunk
header until the next hunk header or file boundary; a `+` line records the
cursor in `addedLines` and advances it, a `-` line records the cursor in
`removedLines` without advancing it, any other line advances the cursor. -/
def scanHunkBody : List (List Char) → Nat → List Nat × List Nat
  | [], _ => ([], [])
  | l :: rest, cursor =>
    if "@@".data.isPrefixOf l || "diff --git".data.isPrefixOf l then ([], [])
    else if "+".data.isPrefixOf l then
      let p := scanHunkBody rest (cursor + 1)
      (cursor :: p.1, p.2)
    else if "-".data.isPrefixOf l then
      let p := scanHunkBody rest cursor
      (p.1, cursor :: p.2)
    else scanHunkBody rest (cursor + 1)

/-- Diff metadata lines skipped by the outer loop of `parseDiff`. -/
def isMetaLine (l : List Char) : Bool :=
  "index ".data.isPrefixOf l || "--- ".data.isPrefixOf l || "+++ ".data.isPrefixOf l
    || "old mode".data.isPrefixOf l || "new mode".data.isPrefixOf l
    || "new file".data.isPrefixOf l || "deleted file".data.isPrefixOf l

/-- Closes the pending hunk: `currentHunk.content = lineContent.join('\n')`. -/
def finishHunk (h : DiffHunk) (lineContent : List (List Char)) : DiffHunk :=
  { h with content := String.intercalate "\n" (lineContent.map String.mk) }

/-- The outer hunk-parsing loop of `parseDiff` over the segment's lines
(after the header line).  The state is the pending hunk with its collected
content lines; a hunk-header line closes the pending hunk and opens a new
one whose added/removed lines come from `scanHunkBody`; metadata lines are
skipped; other lines are collected as content of the pending hunk. -/
def parseHunksAux (filePath : String) :
    List (List Char) → Option (DiffHunk × List (List Char)) → List DiffHunk
  | [], cur =>
    match cur with
    | some (h, lc) => [finishHunk h lc]
    | none => []
  | l :: rest, cur =>
    match parseHunkHeader l with
    | some (oldStart, oldLines, newStart, newLines, hdrRest) =>
      let scanned := scanHunkBody rest newStart
      let newHunk : DiffHunk :=
        { file := filePath, oldStart, oldLines, newStart, newLines,
          header := String.mk (jsTrim hdrRest), content := "",
          addedLines := scanned.1, removedLines := scanned.2 }
      match cur with
      | some (h, lc) => finishHunk h lc :: parseHunksAux filePath rest (some (newHunk, [l]))
      | none => parseHunksAux filePath rest (some (newHunk, [l]))
    | none =>
      if isMetaLine l then parseHunksAux filePath rest cur
      else
        match cur with
        | some (h, lc) => parseHunksAux filePath rest (some (h, lc ++ [l]))
        | none => parseHunksAux filePath rest cur

/-- Parse one per-file segment of the diff, yielding `none` when the
segment contributes no `DiffFile`: an unmatched header line or an excluded
path.  `matcher` is the external path-exclusion collaborator
(`minimatch`), used unchanged. -/
def parseSegment (matcher : String → String → Bool) (excludePaths : List String)
    (seg : List Char) : Option DiffFile :=
  match matchPathsAB ((splitLines seg).headD []) with
  | none => none
  | some fp =>
    if excludePaths.any (fun pat => matcher (String.mk fp) pat) then none
    else if containsSub "Binary files".data seg then
      some { path := String.mk fp, hunks := [], fullContent := none,
             isNew := containsSub "new file mode".data seg,
             isDeleted := containsSub "deleted file mode".data seg, isBinary := true }
    else
      some { path := String.mk fp,
             hunks := parseHunksAux (String.mk fp) (splitLines seg).tail none,
             fullContent := none,
             isNew := containsSub "new file mode".data seg,
             isDeleted := containsSub "deleted file mode".data seg, isBinary := false }

/-- `parseDiff(rawDiff, excludePaths)`: split on `diff --git` boundaries,
drop empty segments (`filter(Boolean)`), and parse each remaining segment,
skipping those that yield no record. -/
def parseDiff (matcher : String → String → Bool) (rawDiff : String)
    (excludePaths : List String) : List DiffFile :=
  (((splitFileDiffsAux rawDiff.data true []).filter (fun s => !s.isEmpty)).filterMap
    (parseSegment matcher excludePaths))

/-! ## Priority chunker and context-window builder (src/chunker.ts) -/

/-- Extension configuration (src/types.ts, `SelfReviewConfig`).  Only
`maxFilesPerChunk` and `contextLines` are read by the chunker. -/
structure SelfReviewConfig where
  baseBranch : String
  targetBranch : String
  includeUncommitted : Bool
  severityThreshold : String
  excludePaths : List String
  maxFilesPerChunk : Nat
  contextLines : Nat
  categories : List String
  customInstructions : String
  maxFindings : Nat
deriving Repr, DecidableEq

/-- `filePriority`: rank a path by whole path-segment tokens.  Lower number
= reviewed first.  Order of the rules exactly as in the source:
tests/specs → 5, controllers/auth → 0, routes/config → 1,
models/services/jobs → 2, migrations/db → 3, views/templates (or an
`.erb`/`.html` substring) → 4, everything else → 6. -/
def filePriority (filePath : String) : Nat :=
  let p := (filePath.data.map Char.toLower).map (fun c => if c = '\\' then '/' else c)
  let segments := (splitOnCharAux '/' p []).filter (fun s => !s.isEmpty)
  let tokens := (segments.flatMap (fun seg => alnumRunsAux seg [])).map String.mk
  let hasAnyToken := fun (values : List String) => values.any (fun v => tokens.contains v)
  if hasAnyToken ["test", "tests", "spec", "specs"] then 5
  else if hasAnyToken ["controller", "controllers", "auth", "authorization"] then 0
  else if hasAnyToken ["route", "routes", "config", "configs"] then 1
  else if hasAnyToken ["model", "models", "service", "services", "job", "jobs"] then 2
  else if hasAnyToken ["migration", "migrations", "db", "database"] then 3
  else if hasAnyToken ["view", "views", "template", "templates"]
      || containsSub ".erb".data p || containsSub ".html".data p then 4
  else 6

/-- Stable insertion of `f` after every already-placed file of priority
≤ its own (JavaScript `Array.prototype.sort` is stable). -/
def insertByPriority (f : DiffFile) : List DiffFile → List DiffFile
  | [] => [f]
  | g :: rest =>
    if filePriority g.path ≤ filePriority f.path then g :: insertByPriority f rest
    else f :: g :: rest

/-- The stable sort `[...files].sort((a, b) => filePriority(a.path) -
filePriority(b.path))`. -/
def sortByPriority (files : List DiffFile) : List DiffFile :=
  files.foldl (fun acc f => insertByPriority f acc) []

/-- `estimateTokens`: `Math.ceil(text.length / 3.5)`, computed exactly over
`Nat` as the ceiling of `2·length/7`. -/
def estimateTokens (text : String) : Nat :=
  (2 * text.length + 6) / 7

/-- A hunk's candidate context window, 0-indexed, end exclusive (the field
`end` of the source is named `stop` here because `end` is a Lean keyword):
`start = max(0, newStart - 1 - contextLines)` and
`stop = min(lineCount, newStart - 1 + newLines + contextLines)`. -/
structure HunkWindow where
  hunk : DiffHunk
  start : Int
  stop : Int
deriving Repr, DecidableEq

/-- A merged window with the hunks it subsumes. -/
structure MergedWindow where
  start : Int
  stop : Int
  hunks : List DiffHunk
deriving Repr, DecidableEq

/-- The candidate window of one hunk. -/
def hunkWindow (lineCount : Nat) (contextLines : Nat) (h : DiffHunk) : HunkWindow :=
  { hunk := h,
    start := max 0 ((h.newStart : Int) - 1 - (contextLines : Int)),
    stop := min (lineCount : Int) ((h.newStart : Int) - 1 + (h.newLines : Int) + (contextLines : Int)) }

/-- Left-to-right merge of candidate windows, `cur` being the last
accumulated window: a candidate whose start is ≤ `cur.stop` merges into
`cur` (end extended to the max, hunk appended), otherwise `cur` is emitted
and the candidate opens a new window. -/
def mergeWindowsAux (cur : MergedWindow) : List HunkWindow → List MergedWindow
  | [] => [cur]
  | w :: rest =>
    if w.start ≤ cur.stop then
      mergeWindowsAux { cur with stop := max cur.stop w.stop, hunks := cur.hunks ++ [w.hunk] } rest
    else
      cur :: mergeWindowsAux { start := w.start, stop := w.stop, hunks := [w.hunk] } rest

/-- Merge a candidate-window list (the `merged` array of the source). -/
def mergeWindows : List HunkWindow → List MergedWindow
  | [] => []
  | w :: rest => mergeWindowsAux { start := w.start, stop := w.stop, hunks := [w.hunk] } rest

/-- The merged context windows `buildFileContext` renders for a file's
hunks against `fileLines = fullContent.split('\n')`. -/
def fileWindows (fileLines : List (List Char)) (contextLines : Nat)
    (hunks : List DiffHunk) : List MergedWindow :=
  mergeWindows (hunks.map (hunkWindow fileLines.length contextLines))

/-- JavaScript `Array.prototype.slice(start, end)` with possibly negative
indices (a negative index counts from the end of the array). -/
def jsSlice {α : Type} (l : List α) (s e : Int) : List α :=
  let n : Int := l.length
  let s1 := (if s < 0 then max (n + s) 0 else min s n).toNat
  let e1 := (if e < 0 then max (n + e) 0 else min e n).toNat
  (l.take e1).drop s1

/-- JavaScript `String(x).padStart(5)` for an already-rendered number. -/
def padStart5 (s : String) : String :=
  String.mk (List.replicate (5 - s.length) ' ') ++ s

/-- One rendered source line of a context window:
`` `${prefix}${String(lineNum).padStart(5)} | ${line}` `` where the marker
is `'+'` exactly when the 1-based line number is in the window's added
set, `' '` otherwise. -/
def renderWindowLine (added : List Nat) (start : Int) (idx : Nat) (line : List Char) : String :=
  let lineNum : Int := start + (idx : Int) + 1
  let isAdded := added.any (fun n => (n : Int) == lineNum)
  (if isAdded then "+" else " ") ++ padStart5 (toString lineNum) ++ " | " ++ String.mk line

/-- The rendered body lines of one merged window: the slice
`fileLines.slice(window.start, window.end)` annotated line by line against
the union of the window's hunks' added-line sets. -/
def renderWindowLines (fileLines : List (List Char)) (w : MergedWindow) : List String :=
  let contextSlice := jsSlice fileLines w.start w.stop
  let added := w.hunks.flatMap (fun h => h.addedLines)
  contextSlice.enum.map (fun p => renderWindowLine added w.start p.1 p.2)

/-- The `### Hunk at …` heading of one merged window. -/
def windowHeader (w : MergedWindow) : String :=
  match w.hunks with
  | [h] => "line " ++ toString h.newStart ++ " " ++ h.header
  | hs => String.intercalate ", " (hs.map (fun h => "line " ++ toString h.newStart))

/-- `buildFileContext(file, config)` (the window-merging version): header
line, then per merged window a heading and a fenced annotated block; when
no full text is available (including the JavaScript-falsy empty string) or
the file is deleted, fall back to the raw hunk text. -/
def buildFileContext (file : DiffFile) (config : SelfReviewConfig) : String :=
  let headerPart := "## File: " ++ file.path
    ++ (if file.isNew then " (new)" else "") ++ (if file.isDeleted then " (deleted)" else "")
  let hasContent := (match file.fullContent with
    | some c => !c.isEmpty
    | none => false) && !file.isDeleted
  let parts : List String :=
    if hasContent then
      let content := file.fullContent.getD ""
      let fileLines := splitLines content.data
      let merged := fileWindows fileLines config.contextLines file.hunks
      merged.flatMap (fun w =>
        ["\n### Hunk at " ++ windowHeader w, "```"] ++ renderWindowLines fileLines w ++ ["```"])
    else
      file.hunks.flatMap (fun h =>
        ["\n### Diff hunk at line " ++ toString h.newStart, "```diff", h.content, "```"])
  String.intercalate "\n" (headerPart :: parts)

/-- A review chunk (src/types.ts, `DiffChunk`). -/
structure DiffChunk where
  files : List DiffFile
  tokenEstimate : Nat
deriving Repr, DecidableEq

/-- The estimated size of one file's rendered context. -/
def estimatedSize (config : SelfReviewConfig) (f : DiffFile) : Nat :=
  estimateTokens (buildFileContext f config)

/-- Sum of the members' estimated sizes. -/
def sumEstimates (config : SelfReviewConfig) (files : List DiffFile) : Nat :=
  (files.map (estimatedSize config)).sum

/-- One iteration of the bin-packing loop of `chunkDiffFiles`.  State:
emitted chunks, current chunk's files, current chunk's running token sum. -/
def chunkStep (config : SelfReviewConfig) (tokenBudget : Nat)
    (state : List DiffChunk × List DiffFile × Nat) (file : DiffFile) :
    List DiffChunk × List DiffFile × Nat :=
  let chunks := state.1
  let currentFiles := state.2.1
  let currentTokens := state.2.2
  let tokens := estimatedSize config file
  if tokens > tokenBudget then
    let chunks1 := if currentFiles.length > 0 then chunks ++ [⟨currentFiles, currentTokens⟩] else chunks
    (chunks1 ++ [⟨[file], tokens⟩], [], 0)
  else if currentTokens + tokens > tokenBudget || currentFiles.length ≥ config.maxFilesPerChunk then
    let chunks1 := if currentFiles.length > 0 then chunks ++ [⟨currentFiles, currentTokens⟩] else chunks
    (chunks1, [file], tokens)
  else
    (chunks, currentFiles ++ [file], currentTokens + tokens)

/-- `chunkDiffFiles(files, config, tokenBudget)`: drop binary/hunkless
files, stable-sort by priority, then greedily bin-pack in priority order,
flushing the final partial chunk. -/
def chunkDiffFiles (files : List DiffFile) (config : SelfReviewConfig)
    (tokenBudget : Nat := 40000) : List DiffChunk :=
  let reviewable := files.filter (fun f => decide (0 < f.hunks.length) && !f.isBinary)
  let sorted := sortByPriority reviewable
  let final := sorted.foldl (chunkStep config tokenBudget) ([], [], 0)
  if final.2.1.length > 0 then final.1 ++ [⟨final.2.1, final.2.2⟩] else final.1

/-! ## Helper measures for the amended parser invariant -/

/-- Number of cursor-advancing lines (`+` or context) in a hunk body, up to
the same break condition as `scanHunkBody`. -/
def countAddCtx : List (List Char) → Nat
  | [] => 0
  | l :: rest =>
    if "@@".data.isPrefixOf l || "diff --git".data.isPrefixOf l then 0
    else if "+".data.isPrefixOf l then 1 + countAddCtx rest
    else if "-".data.isPrefixOf l then countAddCtx rest
    else 1 + countAddCtx rest

/-- Whether a hunk body contains an addition or removal line, up to the
same break condition as `scanHunkBody`. -/
def hasChangeLine : List (List Char) → Bool
  | [] => false
  | l :: rest =>
    if "@@".data.isPrefixOf l || "diff --git".data.isPrefixOf l then false
    else if "+".data.isPrefixOf l || "-".data.isPrefixOf l then true
    else hasChangeLine rest

/-- A hunk whose added/removed line lists are exactly the result of the
`scanHunkBody` lookahead over some body, with the cursor starting at its
own `newStart` (every hunk `parseDiff` emits has this shape). -/
def hunkFromScan (h : DiffHunk) : Prop :=
  ∃ body, h.addedLines = (scanHunkBody body h.newStart).1 ∧
    h.removedLines = (scanHunkBody body h.newStart).2

/-- The chunk-budget invariant of one emitted chunk: its token estimate is
the sum of its members' estimated sizes, and a chunk with more than one
file respects both the token budget and the per-chunk file limit. -/
def ChunkOk (config : SelfReviewConfig) (tokenBudget : Nat) (c : DiffChunk) : Prop :=
  c.tokenEstimate = sumEstimates config c.files ∧
  (1 < c.files.length → c.tokenEstimate ≤ tokenBudget ∧
    c.files.length ≤ config.maxFilesPerChunk)

/-! # Theorems -/

/-! ## Deduplicator lemmas -/

theorem titleSimilarity_empty_left (b : List String) : titleSimilarity [] b = 0 := by
  simp [titleSimilarity]

theorem titleSimilarity_empty_right (a : List String) : titleSimilarity a [] = 0 := by
  simp [titleSimilarity]

theorem nearDuplicate_eq_true_iff (r f : ReviewFinding) :
    nearDuplicate r f = true ↔
      r.file = f.file ∧ r.startLine ≤ f.endLine ∧ f.startLine ≤ r.endLine ∧
        titleSimilarity (normalizeTitleTokens r.title) (normalizeTitleTokens f.title) ≥ 0.6 := by
  simp [nearDuplicate, rangesOverlap, Bool.and_eq_true, decide_eq_true_iff, beq_iff_eq,
    ge_iff_le, and_assoc]

theorem nearDuplicate_empty_tokens (r f : ReviewFinding)
    (hf : normalizeTitleTokens f.title = []) :
    nearDuplicate r f = false ∧ nearDuplicate f r = false := by
  have h06 : ¬ ((0.6 : ℚ) ≤ 0) := by norm_num
  constructor
  · simp [nearDuplicate, hf, titleSimilarity_empty_right, h06]
  · simp [nearDuplicate, hf, titleSimilarity_empty_left, h06]

theorem deduplicateFindings_append_last (xs : List ReviewFinding) (f : ReviewFinding) :
    deduplicateFindings (xs ++ [f]) = dedupeStep (deduplicateFindings xs) f := by
  simp [deduplicateFindings, List.foldl_append]

theorem dedupeStep_total (acc : List ReviewFinding) (f : ReviewFinding) :
    dedupeStep acc f = acc ∨ dedupeStep acc f = acc ++ [f] := by
  unfold dedupeStep
  split
  · exact Or.inl rfl
  · split
    · exact Or.inl rfl
    · exact Or.inr rfl

theorem foldl_dedupeStep_accepted (m : List ReviewFinding) :
    ∀ acc, ∃ t, m.foldl dedupeStep acc = acc ++ t ∧ acceptedFrom acc t := by
  induction m with
  | nil => intro acc; exact ⟨[], by simp, trivial⟩
  | cons x m ih =>
    intro acc
    rcases dedupeStep_total acc x with h | h
    · obtain ⟨t, ht, hok⟩ := ih acc
      exact ⟨t, by simpa [List.foldl_cons, h] using ht, hok⟩
    · obtain ⟨t, ht, hok⟩ := ih (acc ++ [x])
      refine ⟨x :: t, ?_, h, hok⟩
      rw [List.foldl_cons, h] at *
      simpa [List.append_assoc] using ht

theorem foldl_dedupeStep_fixed (t : List ReviewFinding) :
    ∀ acc, acceptedFrom acc t → t.foldl dedupeStep acc = acc ++ t := by
  induction t with
  | nil => intro acc _; simp
  | cons f t ih =>
    intro acc h
    obtain ⟨h1, h2⟩ := h
    rw [List.foldl_cons, h1, ih _ h2]
    simp

/-- **C5.** A finding `f` that survives exact-key dedup (its key is not
among the accepted keys) is discarded by `deduplicateFindings` if and only
if some already-accepted finding `r` has the same file, an overlapping
line range, and normalized-title Jaccard similarity ≥ 0.6; when `f` is
discarded the accepted list is left unchanged (first occurrence is
authoritative), and otherwise `f` is appended after the accepted list. -/
theorem deduplicateFindings_near_duplicate_iff (xs : List ReviewFinding) (f : ReviewFinding)
    (hkey : dedupKey f ∉ (deduplicateFindings xs).map dedupKey) :
    (deduplicateFindings (xs ++ [f]) = deduplicateFindings xs ↔
      ∃ r ∈ deduplicateFindings xs, r.file = f.file ∧
        r.startLine ≤ f.endLine ∧ f.startLine ≤ r.endLine ∧
        titleSimilarity (normalizeTitleTokens r.title) (normalizeTitleTokens f.title) ≥ 0.6) ∧
    ((¬ ∃ r ∈ deduplicateFindings xs, r.file = f.file ∧
        r.startLine ≤ f.endLine ∧ f.startLine ≤ r.endLine ∧
        titleSimilarity (normalizeTitleTokens r.title) (normalizeTitleTokens f.title) ≥ 0.6) →
      deduplicateFindings (xs ++ [f]) = deduplicateFindings xs ++ [f]) := by
  have hstep := deduplicateFindings_append_last xs f
  set acc := deduplicateFindings xs with hacc
  have hcontains : ((acc.map dedupKey).contains (dedupKey f)) = false := by
    simpa using hkey
  by_cases hany : (acc.any fun r => nearDuplicate r f) = true
  · have hres : deduplicateFindings (xs ++ [f]) = acc := by
      rw [hstep]; unfold dedupeStep; rw [hcontains]; simp [hany]
    obtain ⟨r, hr, hnear⟩ := List.any_eq_true.mp hany
    have hex : ∃ r ∈ acc, r.file = f.file ∧ r.startLine ≤ f.endLine ∧ f.startLine ≤ r.endLine ∧
        titleSimilarity (normalizeTitleTokens r.title) (normalizeTitleTokens f.title) ≥ 0.6 :=
      ⟨r, hr, (nearDuplicate_eq_true_iff r f).mp hnear⟩
    exact ⟨by simp [hres, hex], fun hno => absurd hex hno⟩
  · have hres : deduplicateFindings (xs ++ [f]) = acc ++ [f] := by
      rw [hstep]; unfold dedupeStep; rw [hcontains]
      simp only [Bool.false_eq_true, if_false]
      simp [hany]
    have hnoex : ¬ ∃ r ∈ acc, r.file = f.file ∧ r.startLine ≤ f.endLine ∧ f.startLine ≤ r.endLine ∧
        titleSimilarity (normalizeTitleTokens r.title) (normalizeTitleTokens f.title) ≥ 0.6 := by
      rintro ⟨r, hr, hprops⟩
      exact hany (List.any_eq_true.mpr ⟨r, hr, (nearDuplicate_eq_true_iff r f).mpr hprops⟩)
    have hneq : acc ++ [f] ≠ acc := by
      intro h
      have := congrArg List.length h
      simp at this
    exact ⟨by simp [hres, hneq, hnoex], fun _ => hres⟩

/-- Witness for C5: the specification's own dedup example — overlapping
ranges in the same file, same title tokens in a different order. -/
theorem deduplicateFindings_near_duplicate_iff_witness :
    (dedupKey ⟨"2", "a.x", 11, 13, "high", "Missing null check", "", none, "correctness", "open"⟩ ∉
      (deduplicateFindings [⟨"1", "a.x", 10, 12, "high", "Null check missing", "", none, "correctness", "open"⟩]).map dedupKey) ∧
    ((deduplicateFindings ([⟨"1", "a.x", 10, 12, "high", "Null check missing", "", none, "correctness", "open"⟩] ++
        [⟨"2", "a.x", 11, 13, "high", "Missing null check", "", none, "correctness", "open"⟩]) =
      deduplicateFindings [⟨"1", "a.x", 10, 12, "high", "Null check missing", "", none, "correctness", "open"⟩] ↔
      ∃ r ∈ deduplicateFindings [(⟨"1", "a.x", 10, 12, "high", "Null check missing", "", none, "correctness", "open"⟩ : ReviewFinding)],
        r.file = "a.x" ∧ r.startLine ≤ 13 ∧ 11 ≤ r.endLine ∧
        titleSimilarity (normalizeTitleTokens r.title) (normalizeTitleTokens "Missing null check") ≥ 0.6) ∧
     ((¬ ∃ r ∈ deduplicateFindings [(⟨"1", "a.x", 10, 12, "high", "Null check missing", "", none, "correctness", "open"⟩ : ReviewFinding)],
        r.file = "a.x" ∧ r.startLine ≤ 13 ∧ 11 ≤ r.endLine ∧
        titleSimilarity (normalizeTitleTokens r.title) (normalizeTitleTokens "Missing null check") ≥ 0.6) →
      deduplicateFindings ([⟨"1", "a.x", 10, 12, "high", "Null check missing", "", none, "correctness", "open"⟩] ++
        [⟨"2", "a.x", 11, 13, "high", "Missing null check", "", none, "correctness", "open"⟩]) =
      deduplicateFindings [⟨"1", "a.x", 10, 12, "high", "Null check missing", "", none, "correctness", "open"⟩] ++
        [⟨"2", "a.x", 11, 13, "high", "Missing null check", "", none, "correctness", "open"⟩])) :=
  ⟨by decide,
   deduplicateFindings_near_duplicate_iff
     [⟨"1", "a.x", 10, 12, "high", "Null check missing", "", none, "correctness", "open"⟩]
     ⟨"2", "a.x", 11, 13, "high", "Missing null check", "", none, "correctness", "open"⟩
     (by decide)⟩

/-- **C6.** `deduplicateFindings` is idempotent: running the deduplicator
on its own output returns that output unchanged. -/
theorem deduplicateFindings_idempotent (x : List ReviewFinding) :
    deduplicateFindings (deduplicateFindings x) = deduplicateFindings x := by
  obtain ⟨t, ht, hok⟩ := foldl_dedupeStep_accepted x []
  have hx : deduplicateFindings x = t := by simpa [deduplicateFindings] using ht
  rw [hx]
  have := foldl_dedupeStep_fixed t [] hok
  simpa [deduplicateFindings] using this

/-- **C10.** A finding whose title normalizes to no tokens is never
discarded by the near-duplicate rule and never causes a later finding to
be discarded by it (similarity with an empty token set is 0); but two
findings with distinct raw titles that both normalize to the empty token
list and share file, startLine and endLine produce the same exact-dedup
key, so the later one is dropped. -/
theorem emptyTitle_dedup_behavior (f g r : ReviewFinding)
    (hf : normalizeTitleTokens f.title = []) :
    (nearDuplicate r f = false ∧ nearDuplicate f r = false) ∧
    (normalizeTitleTokens g.title = [] → f.file = g.file → f.startLine = g.startLine →
      f.endLine = g.endLine → f.title ≠ g.title →
      dedupKey f = dedupKey g ∧ deduplicateFindings [f, g] = [f]) := by
  refine ⟨nearDuplicate_empty_tokens r f hf, fun hg hfile hstart hend _ => ?_⟩
  have hkey : dedupKey f = dedupKey g := by
    simp [dedupKey, hf, hg, hfile, hstart, hend]
  refine ⟨hkey, ?_⟩
  have h1 : dedupeStep [] f = [f] := by
    unfold dedupeStep; simp
  have h2 : dedupeStep [f] g = [f] := by
    unfold dedupeStep
    have : ([f].map dedupKey).contains (dedupKey g) = true := by
      simp [hkey.symm]
    rw [this]; simp
  simp [deduplicateFindings, List.foldl_cons, h1, h2]

/-- Witness for C10: titles with no alphanumeric characters. -/
theorem emptyTitle_dedup_behavior_witness :
    (normalizeTitleTokens "!!!" = []) ∧
    (nearDuplicate ⟨"3", "a.x", 1, 2, "low", "real title", "", none, "other", "open"⟩
        ⟨"1", "a.x", 1, 2, "low", "!!!", "", none, "other", "open"⟩ = false ∧
      nearDuplicate ⟨"1", "a.x", 1, 2, "low", "!!!", "", none, "other", "open"⟩
        ⟨"3", "a.x", 1, 2, "low", "real title", "", none, "other", "open"⟩ = false) ∧
    (dedupKey ⟨"1", "a.x", 1, 2, "low", "!!!", "", none, "other", "open"⟩ =
        dedupKey ⟨"2", "a.x", 1, 2, "low", "???", "", none, "other", "open"⟩ ∧
      deduplicateFindings [⟨"1", "a.x", 1, 2, "low", "!!!", "", none, "other", "open"⟩,
          ⟨"2", "a.x", 1, 2, "low", "???", "", none, "other", "open"⟩] =
        [⟨"1", "a.x", 1, 2, "low", "!!!", "", none, "other", "open"⟩]) :=
  ⟨by decide,
   (emptyTitle_dedup_behavior
      ⟨"1", "a.x", 1, 2, "low", "!!!", "", none, "other", "open"⟩
      ⟨"2", "a.x", 1, 2, "low", "???", "", none, "other", "open"⟩
      ⟨"3", "a.x", 1, 2, "low", "real title", "", none, "other", "open"⟩ (by decide)).1,
   (emptyTitle_dedup_behavior
      ⟨"1", "a.x", 1, 2, "low", "!!!", "", none, "other", "open"⟩
      ⟨"2", "a.x", 1, 2, "low", "???", "", none, "other", "open"⟩
      ⟨"3", "a.x", 1, 2, "low", "real title", "", none, "other", "open"⟩ (by decide)).2
     (by decide) rfl rfl rfl (by decide)⟩

/-! ## Parser: removed-line numbering (C1) -/

/-- **C1.** Counter-evidence for the removed-line bookkeeping: on the diff
`@@ -5,1 +9,0 @@` / `-x`, the single removed body line occupied line 5 of
the old file (`oldStart = 5`, `oldLines = 1`), yet `parseDiff` records the
value of the *new-file* cursor, 9, in `removedLines`: the recorded number
lies outside the old range `[oldStart, oldStart + oldLines)` and the true
old-file line number 5 is not recorded.  (The cursor itself is indeed not
advanced for the removed line.)  This contradicts the `DiffHunk` type's
own documentation of `removedLines` as old-file numbering. -/
theorem parseDiff_removedLines_new_numbering_bug :
    parseDiff (fun _ _ => false) "diff --git a/f b/f\n@@ -5,1 +9,0 @@\n-x" [] =
      [{ path := "f",
         hunks := [{ file := "f", oldStart := 5, oldLines := 1, newStart := 9, newLines := 0,
                     header := "", content := "@@ -5,1 +9,0 @@\n-x",
                     addedLines := [], removedLines := [9] }],
         fullContent := none, isNew := false, isDeleted := false, isBinary := false }] ∧
    (∀ n ∈ ([9] : List Nat), ¬ (5 ≤ n ∧ n < 5 + 1)) ∧ (5 : Nat) ∉ ([9] : List Nat) := by
  refine ⟨by decide, by decide, by decide⟩

/-! ## Chunker: test/spec priority rank (C2) -/

/-- **C2.** Counter-evidence for the priority ranking: a test path receives
rank 5 while a path matching no keyword category receives rank 6, so the
stable priority sort used by `chunkDiffFiles` orders the test file *before*
the unmatched file — the code's own comment says tests should always be
lowest priority, and the specification says unmatched paths get the lowest
non-test rank (ordered before test/spec paths). -/
theorem filePriority_unmatched_ranks_after_tests :
    filePriority "src/test/helpers.rb" = 5 ∧ filePriority "readme.md" = 6 ∧
    filePriority "src/test/helpers.rb" < filePriority "readme.md" ∧
    (sortByPriority
        [⟨"src/test/helpers.rb", [⟨"src/test/helpers.rb", 1, 1, 1, 1, "", "", [1], []⟩], none, false, false, false⟩,
         ⟨"readme.md", [⟨"readme.md", 1, 1, 1, 1, "", "", [1], []⟩], none, false, false, false⟩]).map
      DiffFile.path = ["src/test/helpers.rb", "readme.md"] := by
  refine ⟨by decide, by decide, by decide, by decide⟩

/-! ## Empty input and unmatched segments (C9) -/

/-- **C9.** `parseDiff` on the empty string returns the empty list and
`chunkDiffFiles` on the empty file list returns the empty chunk list; and
for every diff text, a per-file segment whose header line does not match
the `a/… b/…` path pattern yields no record (`parseSegment` returns `none`)
and is silently dropped from the per-segment accumulation.  All functions
involved are total, so no error is possible. -/
theorem parse_empty_and_unmatched_skip :
    (∀ (matcher : String → String → Bool) (excl : List String),
      parseDiff matcher "" excl = []) ∧
    (∀ (config : SelfReviewConfig) (tokenBudget : Nat),
      chunkDiffFiles [] config tokenBudget = []) ∧
    (∀ (matcher : String → String → Bool) (excl : List String) (seg : List Char),
      matchPathsAB ((splitLines seg).headD []) = none →
      parseSegment matcher excl seg = none) ∧
    (∀ (matcher : String → String → Bool) (excl : List String) (seg : List Char)
        (segs : List (List Char)),
      matchPathsAB ((splitLines seg).headD []) = none →
      (seg :: segs).filterMap (parseSegment matcher excl) =
        segs.filterMap (parseSegment matcher excl)) := by
  have hskip : ∀ (matcher : String → String → Bool) (excl : List String) (seg : List Char),
      matchPathsAB ((splitLines seg).headD []) = none →
      parseSegment matcher excl seg = none := by
    intro matcher excl seg h
    unfold parseSegment
    rw [h]
  refine ⟨fun matcher excl => rfl, fun config tokenBudget => rfl, hskip, ?_⟩
  intro matcher excl seg segs h
  rw [List.filterMap_cons, hskip matcher excl seg h]

/-- Witness for C9: a segment whose header line is not an `a/… b/…` pair
is skipped. -/
theorem parse_empty_and_unmatched_skip_witness :
    (matchPathsAB ((splitLines "rename from x\nrename to y".data).headD []) = none) ∧
    parseSegment (fun _ _ => false) [] "rename from x\nrename to y".data = none :=
  ⟨by decide,
   parse_empty_and_unmatched_skip.2.2.1 (fun _ _ => false) [] "rename from x\nrename to y".data
     (by decide)⟩

/-! ## Parser: hunk invariants (C7) -/

theorem scanHunkBody_added_lb :
    ∀ (ls : List (List Char)) (c : Nat), ∀ n ∈ (scanHunkBody ls c).1, c ≤ n := by
  intro ls
  induction ls with
  | nil => intro c n hn; simp [scanHunkBody] at hn
  | cons l rest ih =>
    intro c n hn
    by_cases h1 : ("@@".data.isPrefixOf l || "diff --git".data.isPrefixOf l) = true
    · simp [scanHunkBody, h1] at hn
    · by_cases h2 : ("+".data.isPrefixOf l) = true
      · simp [scanHunkBody, h1, h2] at hn
        rcases hn with rfl | hn
        · exact le_refl _
        · exact le_trans (Nat.le_succ c) (ih (c + 1) n hn)
      · by_cases h3 : ("-".data.isPrefixOf l) = true
        · simp [scanHunkBody, h1, h2, h3] at hn
          exact ih c n hn
        · simp [scanHunkBody, h1, h2, h3] at hn
          exact le_trans (Nat.le_succ c) (ih (c + 1) n hn)

theorem scanHunkBody_added_ub :
    ∀ (ls : List (List Char)) (c : Nat), ∀ n ∈ (scanHunkBody ls c).1, n < c + countAddCtx ls := by
  intro ls
  induction ls with
  | nil => intro c n hn; simp [scanHunkBody] at hn
  | cons l rest ih =>
    intro c n hn
    by_cases h1 : ("@@".data.isPrefixOf l || "diff --git".data.isPrefixOf l) = true
    · simp [scanHunkBody, h1] at hn
    · by_cases h2 : ("+".data.isPrefixOf l) = true
      · have hcount : countAddCtx (l :: rest) = 1 + countAddCtx rest := by
          simp [countAddCtx, h1, h2]
        simp [scanHunkBody, h1, h2] at hn
        rcases hn with rfl | hn
        · omega
        · have := ih (c + 1) n hn
          omega
      · by_cases h3 : ("-".data.isPrefixOf l) = true
        · have hcount : countAddCtx (l :: rest) = countAddCtx rest := by
            simp [countAddCtx, h1, h2, h3]
          simp [scanHunkBody, h1, h2, h3] at hn
          have := ih c n hn
          omega
        · have hcount : countAddCtx (l :: rest) = 1 + countAddCtx rest := by
            simp [countAddCtx, h1, h2, h3]
          simp [scanHunkBody, h1, h2, h3] at hn
          have := ih (c + 1) n hn
          omega

theorem scanHunkBody_added_chain :
    ∀ (ls : List (List Char)) (c : Nat), List.Chain' (· < ·) (scanHunkBody ls c).1 := by
  intro ls
  induction ls with
  | nil => intro c; simp [scanHunkBody]
  | cons l rest ih =>
    intro c
    by_cases h1 : ("@@".data.isPrefixOf l || "diff --git".data.isPrefixOf l) = true
    · simp [scanHunkBody, h1]
    · by_cases h2 : ("+".data.isPrefixOf l) = true
      · have hshape : (scanHunkBody (l :: rest) c).1 = c :: (scanHunkBody rest (c + 1)).1 := by
          simp [scanHunkBody, h1, h2]
        rw [hshape]
        refine List.chain'_cons'.mpr ⟨?_, ih (c + 1)⟩
        intro y hy
        have hmem := List.mem_of_mem_head? hy
        have := scanHunkBody_added_lb rest (c + 1) y hmem
        omega
      · by_cases h3 : ("-".data.isPrefixOf l) = true
        · have hshape : (scanHunkBody (l :: rest) c).1 = (scanHunkBody rest c).1 := by
            simp [scanHunkBody, h1, h2, h3]
          rw [hshape]
          exact ih c
        · have hshape : (scanHunkBody (l :: rest) c).1 = (scanHunkBody rest (c + 1)).1 := by
            simp [scanHunkBody, h1, h2, h3]
          rw [hshape]
          exact ih (c + 1)

theorem scanHunkBody_change_nonempty :
    ∀ (ls : List (List Char)) (c : Nat), hasChangeLine ls = true →
      ¬ ((scanHunkBody ls c).1 = [] ∧ (scanHunkBody ls c).2 = []) := by
  intro ls
  induction ls with
  | nil => intro c hch; simp [hasChangeLine] at hch
  | cons l rest ih =>
    intro c hch
    by_cases h1 : ("@@".data.isPrefixOf l || "diff --git".data.isPrefixOf l) = true
    · simp [hasChangeLine, h1] at hch
    · by_cases h2 : ("+".data.isPrefixOf l) = true
      · simp [scanHunkBody, h1, h2]
      · by_cases h3 : ("-".data.isPrefixOf l) = true
        · simp [scanHunkBody, h1, h2, h3]
        · have hch' : hasChangeLine rest = true := by
            simpa [hasChangeLine, h1, h2, h3] using hch
          have hshape : scanHunkBody (l :: rest) c = scanHunkBody rest (c + 1) := by
            simp [scanHunkBody, h1, h2, h3]
          rw [hshape]
          exact ih (c + 1) hch'

theorem parseHunksAux_from_scan (fp : String) :
    ∀ (ls : List (List Char)) (cur : Option (DiffHunk × List (List Char))),
      (∀ h lc, cur = some (h, lc) → hunkFromScan h) →
      ∀ hk ∈ parseHunksAux fp ls cur, hunkFromScan hk := by
  intro ls
  induction ls with
  | nil =>
    intro cur hcur hk hmem
    cases cur with
    | none => simp [parseHunksAux] at hmem
    | some p =>
      obtain ⟨h, lc⟩ := p
      simp only [parseHunksAux, List.mem_singleton] at hmem
      subst hmem
      obtain ⟨body, hb1, hb2⟩ := hcur h lc rfl
      exact ⟨body, hb1, hb2⟩
  | cons l rest ih =>
    intro cur hcur hk hmem
    rcases hhdr : parseHunkHeader l with _ | ⟨os, ol, ns, nl, hr⟩
    · by_cases hmeta : isMetaLine l = true
      · rw [show parseHunksAux fp (l :: rest) cur = parseHunksAux fp rest cur from by
          simp [parseHunksAux, hhdr, hmeta]] at hmem
        exact ih cur hcur hk hmem
      · cases cur with
        | none =>
          rw [show parseHunksAux fp (l :: rest) none = parseHunksAux fp rest none from by
            simp [parseHunksAux, hhdr, hmeta]] at hmem
          exact ih none hcur hk hmem
        | some p =>
          obtain ⟨h0, lc0⟩ := p
          rw [show parseHunksAux fp (l :: rest) (some (h0, lc0)) =
              parseHunksAux fp rest (some (h0, lc0 ++ [l])) from by
            simp [parseHunksAux, hhdr, hmeta]] at hmem
          refine ih _ ?_ hk hmem
          intro h lc heq
          injection heq with heq'
          injection heq' with hA hB
          exact hA ▸ hcur h0 lc0 rfl
    · cases cur with
      | none =>
        simp only [parseHunksAux, hhdr] at hmem
        refine ih _ ?_ hk hmem
        intro h lc heq
        injection heq with heq'
        injection heq' with hA hB
        subst hA
        exact ⟨rest, rfl, rfl⟩
      | some p =>
        obtain ⟨h0, lc0⟩ := p
        simp only [parseHunksAux, hhdr, List.mem_cons] at hmem
        rcases hmem with rfl | hmem'
        · obtain ⟨body, hb1, hb2⟩ := hcur h0 lc0 rfl
          exact ⟨body, hb1, hb2⟩
        · refine ih _ ?_ hk hmem'
          intro h lc heq
          injection heq with heq'
          injection heq' with hA hB
          subst hA
          exact ⟨rest, rfl, rfl⟩

theorem parseDiff_hunks_from_scan (matcher : String → String → Bool) (raw : String)
    (excl : List String) :
    ∀ file ∈ parseDiff matcher raw excl, ∀ hk ∈ file.hunks, hunkFromScan hk := by
  intro file hfile hk hmem
  obtain ⟨seg, hseg, hparse⟩ := List.mem_filterMap.mp hfile
  unfold parseSegment at hparse
  rcases hab : matchPathsAB ((splitLines seg).headD []) with _ | fp
  · rw [hab] at hparse; simp at hparse
  · rw [hab] at hparse
    by_cases hexcl : (excl.any fun pat => matcher (String.mk fp) pat) = true
    · simp [hexcl] at hparse
    · by_cases hbin : containsSub "Binary files".data seg = true
      · simp only [hexcl, hbin, Bool.false_eq_true, if_false, if_true, Option.some.injEq] at hparse
        subst hparse
        simp at hmem
      · simp only [hexcl, hbin, Bool.false_eq_true, if_false, Option.some.injEq] at hparse
        subst hparse
        simp only at hmem
        exact parseHunksAux_from_scan (String.mk fp) (splitLines seg).tail none
          (by intro h lc heq; cases heq) hk hmem

/-- **C7 (counterexample).** `parseDiff` can produce a hunk whose
`addedLines` and `removedLines` are both empty (a hunk header followed by
no body lines), and a hunk whose `addedLines` leave the declared range
`[newStart, newStart + newLines)` when the body has more `+`/context
lines than the header's `newLines` announces. -/
theorem parseDiff_hunk_invariant_counterexample :
    (parseDiff (fun _ _ => false) "diff --git a/f b/f\n@@ -1 +1 @@" [] =
      [{ path := "f",
         hunks := [{ file := "f", oldStart := 1, oldLines := 1, newStart := 1, newLines := 1,
                     header := "", content := "@@ -1 +1 @@",
                     addedLines := [], removedLines := [] }],
         fullContent := none, isNew := false, isDeleted := false, isBinary := false }]) ∧
    (parseDiff (fun _ _ => false) "diff --git a/f b/f\n@@ -1 +1 @@\n+x\n+y" [] =
      [{ path := "f",
         hunks := [{ file := "f", oldStart := 1, oldLines := 1, newStart := 1, newLines := 1,
                     header := "", content := "@@ -1 +1 @@\n+x\n+y",
                     addedLines := [1, 2], removedLines := [] }],
         fullContent := none, isNew := false, isDeleted := false, isBinary := false }]) ∧
    (2 ∈ ([1, 2] : List Nat) ∧ ¬ (2 < 1 + 1)) := by
  refine ⟨by decide, by decide, by decide⟩

/-- **C7 (amended).** For every hunk `parseDiff` produces, `addedLines` is
strictly increasing and bounded below by `newStart`; the added/removed
lists are exactly the `scanHunkBody` scan of the hunk's body, and whenever
that body is consistent with the header — at most `newLines` lines that
advance the cursor, resp. at least one `+`/`-` line — the original claim's
bounds ` [newStart, newStart + newLines)` and non-emptiness hold. -/
theorem parseDiff_hunk_invariant_amended (matcher : String → String → Bool) (raw : String)
    (excl : List String) (file : DiffFile) (hunk : DiffHunk)
    (hfile : file ∈ parseDiff matcher raw excl) (hhunk : hunk ∈ file.hunks) :
    List.Chain' (· < ·) hunk.addedLines ∧
    (∀ n ∈ hunk.addedLines, hunk.newStart ≤ n) ∧
    ∃ body, hunk.addedLines = (scanHunkBody body hunk.newStart).1 ∧
      hunk.removedLines = (scanHunkBody body hunk.newStart).2 ∧
      (countAddCtx body ≤ hunk.newLines →
        ∀ n ∈ hunk.addedLines, n < hunk.newStart + hunk.newLines) ∧
      (hasChangeLine body = true → ¬ (hunk.addedLines = [] ∧ hunk.removedLines = [])) := by
  obtain ⟨body, hb1, hb2⟩ := parseDiff_hunks_from_scan matcher raw excl file hfile hunk hhunk
  refine ⟨hb1 ▸ scanHunkBody_added_chain body hunk.newStart,
          fun n hn => scanHunkBody_added_lb body hunk.newStart n (hb1 ▸ hn),
          body, hb1, hb2, ?_, ?_⟩
  · intro hcount n hn
    have := scanHunkBody_added_ub body hunk.newStart n (hb1 ▸ hn)
    omega
  · intro hch hemp
    exact scanHunkBody_change_nonempty body hunk.newStart hch ⟨hb1 ▸ hemp.1, hb2 ▸ hemp.2⟩

/-- Witness for the amended C7 at a well-formed concrete diff. -/
theorem parseDiff_hunk_invariant_amended_witness :
    (⟨"f", [⟨"f", 1, 1, 1, 2, "", "@@ -1,1 +1,2 @@\n+x\n y", [1], []⟩], none, false, false, false⟩ ∈
      parseDiff (fun _ _ => false) "diff --git a/f b/f\n@@ -1,1 +1,2 @@\n+x\n y" []) ∧
    (⟨"f", 1, 1, 1, 2, "", "@@ -1,1 +1,2 @@\n+x\n y", [1], []⟩ ∈
      (⟨"f", [⟨"f", 1, 1, 1, 2, "", "@@ -1,1 +1,2 @@\n+x\n y", [1], []⟩], none, false, false, false⟩ : DiffFile).hunks) ∧
    (List.Chain' (· < ·) [1] ∧
      (∀ n ∈ ([1] : List Nat), 1 ≤ n) ∧
      ∃ body, ([1] : List Nat) = (scanHunkBody body 1).1 ∧
        ([] : List Nat) = (scanHunkBody body 1).2 ∧
        (countAddCtx body ≤ 2 → ∀ n ∈ ([1] : List Nat), n < 1 + 2) ∧
        (hasChangeLine body = true → ¬ (([1] : List Nat) = [] ∧ ([] : List Nat) = []))) :=
  ⟨by decide, by decide,
   parseDiff_hunk_invariant_amended (fun _ _ => false) "diff --git a/f b/f\n@@ -1,1 +1,2 @@\n+x\n y" []
     ⟨"f", [⟨"f", 1, 1, 1, 2, "", "@@ -1,1 +1,2 @@\n+x\n y", [1], []⟩], none, false, false, false⟩
     ⟨"f", 1, 1, 1, 2, "", "@@ -1,1 +1,2 @@\n+x\n y", [1], []⟩
     (by decide) (by decide)⟩

/-! ## Context-window merging (C4) -/

theorem mergeWindowsAux_append (w : HunkWindow) :
    ∀ (ws : List HunkWindow) (cur : MergedWindow), ∃ init last,
      mergeWindowsAux cur ws = init ++ [last] ∧
      mergeWindowsAux cur (ws ++ [w]) =
        (if w.start ≤ last.stop
         then init ++ [⟨last.start, max last.stop w.stop, last.hunks ++ [w.hunk]⟩]
         else init ++ [last, ⟨w.start, w.stop, [w.hunk]⟩]) := by
  intro ws
  induction ws with
  | nil =>
    intro cur
    refine ⟨[], cur, rfl, ?_⟩
    by_cases h : w.start ≤ cur.stop <;> simp [mergeWindowsAux, h]
  | cons v rest ih =>
    intro cur
    by_cases h : v.start ≤ cur.stop
    · obtain ⟨init, last, h1, h2⟩ :=
        ih { cur with stop := max cur.stop v.stop, hunks := cur.hunks ++ [v.hunk] }
      exact ⟨init, last, by simpa [mergeWindowsAux, h] using h1,
        by simpa [mergeWindowsAux, h] using h2⟩
    · obtain ⟨init, last, h1, h2⟩ := ih ⟨v.start, v.stop, [v.hunk]⟩
      refine ⟨cur :: init, last, by simp [mergeWindowsAux, h, h1], ?_⟩
      have hstep : mergeWindowsAux cur ((v :: rest) ++ [w]) =
          cur :: mergeWindowsAux ⟨v.start, v.stop, [v.hunk]⟩ (rest ++ [w]) := by
        simp [mergeWindowsAux, h]
      rw [hstep, h2]
      by_cases h' : w.start ≤ last.stop <;> simp [h']

theorem mergeWindowsAux_pairwise :
    ∀ (ws : List HunkWindow) (cur : MergedWindow),
      List.Pairwise (fun a b => a.start ≤ b.start) ws →
      (∀ w' ∈ ws, cur.start ≤ w'.start) →
      List.Pairwise (fun (a b : MergedWindow) => a.stop < b.start) (mergeWindowsAux cur ws) ∧
        ∀ m ∈ mergeWindowsAux cur ws, cur.start ≤ m.start := by
  intro ws
  induction ws with
  | nil =>
    intro cur _ _
    constructor
    · simp [mergeWindowsAux]
    · intro m hm
      simp only [mergeWindowsAux, List.mem_singleton] at hm
      subst hm
      exact le_refl _
  | cons v rest ih =>
    intro cur hsorted hstart
    have hrest_sorted : List.Pairwise (fun a b => a.start ≤ b.start) rest :=
      (List.pairwise_cons.mp hsorted).2
    have hv_rest : ∀ w' ∈ rest, v.start ≤ w'.start :=
      (List.pairwise_cons.mp hsorted).1
    have hcurv : cur.start ≤ v.start := hstart v (List.mem_cons_self v rest)
    by_cases h : v.start ≤ cur.stop
    · have hcur' : ∀ w' ∈ rest,
          (⟨cur.start, max cur.stop v.stop, cur.hunks ++ [v.hunk]⟩ : MergedWindow).start ≤
            w'.start := by
        intro w' hw'
        exact le_trans hcurv (hv_rest w' hw')
      obtain ⟨hp, hm⟩ := ih ⟨cur.start, max cur.stop v.stop, cur.hunks ++ [v.hunk]⟩
        hrest_sorted hcur'
      have hshape : mergeWindowsAux cur (v :: rest) =
          mergeWindowsAux ⟨cur.start, max cur.stop v.stop, cur.hunks ++ [v.hunk]⟩ rest := by
        simp [mergeWindowsAux, h]
      rw [hshape]
      exact ⟨hp, hm⟩
    · have hnew : ∀ w' ∈ rest, (⟨v.start, v.stop, [v.hunk]⟩ : MergedWindow).start ≤ w'.start :=
        hv_rest
      obtain ⟨hp, hm⟩ := ih ⟨v.start, v.stop, [v.hunk]⟩ hrest_sorted hnew
      have hshape : mergeWindowsAux cur (v :: rest) =
          cur :: mergeWindowsAux ⟨v.start, v.stop, [v.hunk]⟩ rest := by
        simp [mergeWindowsAux, h]
      rw [hshape]
      constructor
      · refine List.pairwise_cons.mpr ⟨?_, hp⟩
        intro m hmem
        have h2 : v.start ≤ m.start := hm m hmem
        omega
      · intro m hmem
        rcases List.mem_cons.mp hmem with rfl | hmem'
        · exact le_refl _
        · exact le_trans hcurv (hm m hmem')

theorem mergeWindows_pairwise (ws : List HunkWindow)
    (h : List.Pairwise (fun a b => a.start ≤ b.start) ws) :
    List.Pairwise (fun (a b : MergedWindow) => a.stop < b.start) (mergeWindows ws) := by
  cases ws with
  | nil => simp [mergeWindows]
  | cons v rest =>
    have := mergeWindowsAux_pairwise rest ⟨v.start, v.stop, [v.hunk]⟩
      (List.pairwise_cons.mp h).2 (List.pairwise_cons.mp h).1
    simpa [mergeWindows] using this.1

theorem hunkWindow_start_mono (lineCount contextLines : Nat) (a b : DiffHunk)
    (h : a.newStart ≤ b.newStart) :
    (hunkWindow lineCount contextLines a).start ≤ (hunkWindow lineCount contextLines b).start := by
  simp only [hunkWindow]
  apply max_le_max (le_refl 0)
  omega

/-- **C4.** For a file whose hunks are in source order (non-decreasing
`newStart`), the merged context windows `buildFileContext` computes via
`fileWindows` are pairwise disjoint and non-touching — every later
window's start is strictly greater than every earlier window's end — and
the merge step has exactly the specified behaviour: appending a candidate
window `w` to a nonempty candidate list merges it into the last
accumulated window precisely when `w.start` is ≤ that window's end, in
which case the end becomes the max of the two ends and `w`'s hunk is
appended to the window's hunk set; otherwise `w` opens a fresh window. -/
theorem buildFileContext_window_merge (fileLines : List (List Char)) (contextLines : Nat)
    (hunks : List DiffHunk)
    (hsorted : List.Chain' (fun a b => a.newStart ≤ b.newStart) hunks) :
    List.Pairwise (fun (a b : MergedWindow) => a.stop < b.start)
      (fileWindows fileLines contextLines hunks) ∧
    ∀ (ws : List HunkWindow) (w : HunkWindow), ws ≠ [] → ∃ init last,
      mergeWindows ws = init ++ [last] ∧
      mergeWindows (ws ++ [w]) =
        (if w.start ≤ last.stop
         then init ++ [⟨last.start, max last.stop w.stop, last.hunks ++ [w.hunk]⟩]
         else init ++ [last, ⟨w.start, w.stop, [w.hunk]⟩]) := by
  constructor
  · haveI : IsTrans DiffHunk (fun a b => a.newStart ≤ b.newStart) :=
      ⟨fun _ _ _ h1 h2 => le_trans h1 h2⟩
    have hpw : List.Pairwise (fun a b => a.newStart ≤ b.newStart) hunks :=
      List.chain'_iff_pairwise.mp hsorted
    have hws : List.Pairwise (fun a b => a.start ≤ b.start)
        (hunks.map (hunkWindow fileLines.length contextLines)) := by
      rw [List.pairwise_map]
      exact hpw.imp_of_mem (fun {a b} _ _ hab =>
        hunkWindow_start_mono fileLines.length contextLines a b hab)
    exact mergeWindows_pairwise _ hws
  · intro ws w hne
    cases ws with
    | nil => exact absurd rfl hne
    | cons v rest =>
      obtain ⟨init, last, h1, h2⟩ := mergeWindowsAux_append w rest ⟨v.start, v.stop, [v.hunk]⟩
      exact ⟨init, last, h1, h2⟩

/-- Witness for C4: two sorted hunks whose margin-extended windows touch. -/
theorem buildFileContext_window_merge_witness :
    List.Chain' (fun (a b : DiffHunk) => a.newStart ≤ b.newStart)
      [⟨"f", 1, 1, 1, 1, "", "", [1], []⟩, ⟨"f", 4, 1, 4, 1, "", "", [4], []⟩] ∧
    List.Pairwise (fun (a b : MergedWindow) => a.stop < b.start)
      (fileWindows (splitLines "a\nb\nc\nd\ne".data) 0
        [⟨"f", 1, 1, 1, 1, "", "", [1], []⟩, ⟨"f", 4, 1, 4, 1, "", "", [4], []⟩]) :=
  ⟨by simp [List.chain'_cons],
   (buildFileContext_window_merge (splitLines "a\nb\nc\nd\ne".data) 0
      [⟨"f", 1, 1, 1, 1, "", "", [1], []⟩, ⟨"f", 4, 1, 4, 1, "", "", [4], []⟩]
      (by simp [List.chain'_cons])).1⟩

/-! ## Rendered-line annotation (C8) -/

theorem renderWindowLine_head (added : List Nat) (start : Int) (idx : Nat) (line0 : List Char) :
    (renderWindowLine added start idx line0).data.head? =
      some (if added.any (fun n => (n : Int) == start + (idx : Int) + 1) then '+' else ' ') := by
  unfold renderWindowLine
  by_cases h : added.any (fun n => (n : Int) == start + (idx : Int) + 1)
  · simp only [h, if_true]
    rw [String.data_append, String.data_append, String.data_append]
    rfl
  · simp only [h, if_false]
    rw [String.data_append, String.data_append, String.data_append]
    rfl

/-- **C8.** In a rendered context window, the line at (0-based) position
`idx` carries the `'+'` prefix if and only if its 1-based line number
`window.start + idx + 1` belongs to the union of the added-line sets of
the hunks of that window; every other rendered line carries the space
prefix. -/
theorem render_added_marker_iff (fileLines : List (List Char)) (w : MergedWindow)
    (idx : Nat) (line : String)
    (hline : (renderWindowLines fileLines w)[idx]? = some line) :
    (line.data.head? = some '+' ↔
      ∃ n ∈ w.hunks.flatMap (fun h => h.addedLines), (n : Int) = w.start + (idx : Int) + 1) ∧
    ((¬ ∃ n ∈ w.hunks.flatMap (fun h => h.addedLines), (n : Int) = w.start + (idx : Int) + 1) →
      line.data.head? = some ' ') := by
  simp only [renderWindowLines] at hline
  rw [List.getElem?_map, List.getElem?_enum] at hline
  rcases hsl : (jsSlice fileLines w.start w.stop)[idx]? with _ | l0
  · rw [hsl] at hline; simp at hline
  · rw [hsl] at hline
    simp only [Option.map_some'] at hline
    have hlineEq : line = renderWindowLine (w.hunks.flatMap fun h => h.addedLines) w.start idx l0 :=
      (Option.some.injEq .. ▸ hline).symm
    subst hlineEq
    rw [renderWindowLine_head]
    have hany_iff : ((w.hunks.flatMap fun h => h.addedLines).any
        (fun n => (n : Int) == w.start + (idx : Int) + 1)) = true ↔
        ∃ n ∈ w.hunks.flatMap (fun h => h.addedLines),
          (n : Int) = w.start + (idx : Int) + 1 := by
      rw [List.any_eq_true]
      constructor
      · rintro ⟨n, hn, hbeq⟩; exact ⟨n, hn, eq_of_beq hbeq⟩
      · rintro ⟨n, hn, hEq⟩; exact ⟨n, hn, beq_iff_eq.mpr hEq⟩
    by_cases hb : ((w.hunks.flatMap fun h => h.addedLines).any
        (fun n => (n : Int) == w.start + (idx : Int) + 1)) = true
    · rw [if_pos hb]
      exact ⟨Iff.intro (fun _ => hany_iff.mp hb) (fun _ => rfl),
             fun hno => absurd (hany_iff.mp hb) hno⟩
    · rw [if_neg hb]
      refine ⟨Iff.intro (fun hplus => absurd hplus (by decide))
        (fun hex => absurd (hany_iff.mpr hex) hb), fun _ => rfl⟩

/-- Witness for C8: a two-line file whose first line is an addition. -/
theorem render_added_marker_iff_witness :
    ((renderWindowLines (splitLines "a\nb".data)
        ⟨0, 2, [⟨"f", 1, 2, 1, 2, "", "", [1], []⟩]⟩)[0]? = some "+    1 | a") ∧
    (("+    1 | a" : String).data.head? = some '+' ↔
      ∃ n ∈ ([⟨"f", 1, 2, 1, 2, "", "", [1], []⟩] : List DiffHunk).flatMap
          (fun h => h.addedLines),
        (n : Int) = (0 : Int) + ((0 : Nat) : Int) + 1) :=
  ⟨by decide,
   (render_added_marker_iff (splitLines "a\nb".data)
      ⟨0, 2, [⟨"f", 1, 2, 1, 2, "", "", [1], []⟩]⟩ 0 "+    1 | a" (by decide)).1⟩

/-! ## Chunk budget invariant (C3) -/

theorem sumEstimates_append (config : SelfReviewConfig) (l : List DiffFile) (f : DiffFile) :
    sumEstimates config (l ++ [f]) = sumEstimates config l + estimatedSize config f := by
  simp [sumEstimates]

theorem sumEstimates_singleton (config : SelfReviewConfig) (f : DiffFile) :
    sumEstimates config [f] = estimatedSize config f := by
  simp [sumEstimates]

theorem chunkFold_invariant (config : SelfReviewConfig) (tokenBudget : Nat)
    (hmax : 1 ≤ config.maxFilesPerChunk) :
    ∀ (fs : List DiffFile) (chunks : List DiffChunk) (cur : List DiffFile) (tok : Nat),
      (∀ c ∈ chunks, ChunkOk config tokenBudget c) →
      tok = sumEstimates config cur → tok ≤ tokenBudget →
      cur.length ≤ config.maxFilesPerChunk →
      (∀ c ∈ (fs.foldl (chunkStep config tokenBudget) (chunks, cur, tok)).1,
        ChunkOk config tokenBudget c) ∧
      (fs.foldl (chunkStep config tokenBudget) (chunks, cur, tok)).2.2 =
        sumEstimates config (fs.foldl (chunkStep config tokenBudget) (chunks, cur, tok)).2.1 ∧
      (fs.foldl (chunkStep config tokenBudget) (chunks, cur, tok)).2.2 ≤ tokenBudget ∧
      (fs.foldl (chunkStep config tokenBudget) (chunks, cur, tok)).2.1.length ≤
        config.maxFilesPerChunk := by
  intro fs
  induction fs with
  | nil =>
    intro chunks cur tok hchunks hsum hle hlen
    exact ⟨hchunks, hsum, hle, hlen⟩
  | cons x fs ih =>
    intro chunks cur tok hchunks hsum hle hlen
    rw [List.foldl_cons]
    have hflushed : ∀ c ∈ (if cur.length > 0 then chunks ++ [⟨cur, tok⟩] else chunks),
        ChunkOk config tokenBudget c := by
      intro c hc
      by_cases hc0 : cur.length > 0
      · rw [if_pos hc0] at hc
        rcases List.mem_append.mp hc with hc' | hc'
        · exact hchunks c hc'
        · rw [List.mem_singleton.mp hc']
          exact ⟨hsum, fun _ => ⟨hle, hlen⟩⟩
      · rw [if_neg hc0] at hc
        exact hchunks c hc
    by_cases hbig : estimatedSize config x > tokenBudget
    · have hstep : chunkStep config tokenBudget (chunks, cur, tok) x =
          ((if cur.length > 0 then chunks ++ [⟨cur, tok⟩] else chunks) ++
            [⟨[x], estimatedSize config x⟩], [], 0) := by
        simp [chunkStep, hbig]
      rw [hstep]
      refine ih _ [] 0 ?_ (by simp [sumEstimates]) (Nat.zero_le _) (by simp)
      intro c hc
      rcases List.mem_append.mp hc with hc' | hc'
      · exact hflushed c hc'
      · rw [List.mem_singleton.mp hc']
        exact ⟨(sumEstimates_singleton config x).symm, by simp⟩
    · by_cases hover : tok + estimatedSize config x > tokenBudget ∨
          cur.length ≥ config.maxFilesPerChunk
      · have hstep : chunkStep config tokenBudget (chunks, cur, tok) x =
            ((if cur.length > 0 then chunks ++ [⟨cur, tok⟩] else chunks),
              [x], estimatedSize config x) := by
          rcases hover with hA | hB
          · simp [chunkStep, hbig, hA]
          · simp [chunkStep, hbig, hB]
        rw [hstep]
        exact ih _ [x] (estimatedSize config x) hflushed
          (by simp [sumEstimates]) (by omega) (by simpa using hmax)
      · push_neg at hover
        have hstep : chunkStep config tokenBudget (chunks, cur, tok) x =
            (chunks, cur ++ [x], tok + estimatedSize config x) := by
          have hA : ¬ tok + estimatedSize config x > tokenBudget := by omega
          have hB : ¬ cur.length ≥ config.maxFilesPerChunk := by omega
          simp [chunkStep, hbig, hA, hB]
        rw [hstep]
        refine ih _ (cur ++ [x]) (tok + estimatedSize config x) hchunks ?_ (by omega) ?_
        · rw [sumEstimates_append, hsum]
        · have := hover.2
          simp only [List.length_append, List.length_singleton]
          omega

/-- **C3.** For every file list, every config with `maxFilesPerChunk ≥ 1`
and every `tokenBudget ≥ 1`, each chunk emitted by `chunkDiffFiles` has
its token estimate equal to the sum of its members' estimated sizes; a
chunk with more than one file fits the token budget and the per-chunk
file limit, and a single-file chunk can exceed the budget only when that
file's own estimated size does. -/
theorem chunkDiffFiles_budget_invariant (files : List DiffFile) (config : SelfReviewConfig)
    (tokenBudget : Nat) (hmax : 1 ≤ config.maxFilesPerChunk) (_hbud : 1 ≤ tokenBudget) :
    ∀ c ∈ chunkDiffFiles files config tokenBudget,
      c.tokenEstimate = sumEstimates config c.files ∧
      (1 < c.files.length → c.tokenEstimate ≤ tokenBudget ∧
        c.files.length ≤ config.maxFilesPerChunk) ∧
      (∀ f, c.files = [f] → tokenBudget < c.tokenEstimate →
        tokenBudget < estimatedSize config f) := by
  intro c hc
  have hinv := chunkFold_invariant config tokenBudget hmax
    (sortByPriority (files.filter (fun f => decide (0 < f.hunks.length) && !f.isBinary)))
    [] [] 0 (by intro c hc'; simp at hc') (by simp [sumEstimates]) (Nat.zero_le _) (by simp)
  obtain ⟨hchunks, hsum, hle, hlen⟩ := hinv
  have hok : ChunkOk config tokenBudget c := by
    unfold chunkDiffFiles at hc
    set final := (sortByPriority (files.filter (fun f => decide (0 < f.hunks.length) &&
      !f.isBinary))).foldl (chunkStep config tokenBudget) ([], [], 0) with hfinal
    by_cases hfin : final.2.1.length > 0
    · rw [if_pos hfin] at hc
      rcases List.mem_append.mp hc with hc' | hc'
      · exact hchunks c hc'
      · rw [List.mem_singleton.mp hc']
        exact ⟨hsum, fun _ => ⟨hle, hlen⟩⟩
    · rw [if_neg hfin] at hc
      exact hchunks c hc
  obtain ⟨h1, h2⟩ := hok
  refine ⟨h1, h2, ?_⟩
  intro f hf hbig
  rw [h1, hf, sumEstimates_singleton] at hbig
  exact hbig

set_option maxRecDepth 4000 in
/-- Witness for C3 at a concrete one-file run. -/
theorem chunkDiffFiles_budget_invariant_witness :
    (1 ≤ (⟨"main", "", false, "nit", [], 10, 0, [], "", 20⟩ : SelfReviewConfig).maxFilesPerChunk) ∧
    (1 ≤ 40000) ∧
    ((⟨[⟨"src/foo.ts", [⟨"src/foo.ts", 1, 3, 1, 3, "function foo()", "", [1, 3], []⟩],
          some "const a = 1;\nconst b = 2;\nconst c = 3;", false, false, false⟩], 37⟩ : DiffChunk) ∈
      chunkDiffFiles
        [⟨"src/foo.ts", [⟨"src/foo.ts", 1, 3, 1, 3, "function foo()", "", [1, 3], []⟩],
          some "const a = 1;\nconst b = 2;\nconst c = 3;", false, false, false⟩]
        ⟨"main", "", false, "nit", [], 10, 0, [], "", 20⟩ 40000) ∧
    ((37 : Nat) = sumEstimates ⟨"main", "", false, "nit", [], 10, 0, [], "", 20⟩
        [⟨"src/foo.ts", [⟨"src/foo.ts", 1, 3, 1, 3, "function foo()", "", [1, 3], []⟩],
          some "const a = 1;\nconst b = 2;\nconst c = 3;", false, false, false⟩]) :=
  ⟨by decide, by decide, by decide,
   ((chunkDiffFiles_budget_invariant
      [⟨"src/foo.ts", [⟨"src/foo.ts", 1, 3, 1, 3, "function foo()", "", [1, 3], []⟩],
        some "const a = 1;\nconst b = 2;\nconst c = 3;", false, false, false⟩]
      ⟨"main", "", false, "nit", [], 10, 0, [], "", 20⟩ 40000 (by decide) (by decide)
      ⟨[⟨"src/foo.ts", [⟨"src/foo.ts", 1, 3, 1, 3, "function foo()", "", [1, 3], []⟩],
          some "const a = 1;\nconst b = 2;\nconst c = 3;", false, false, false⟩], 37⟩
      (by decide)).1)⟩

end SelfReview
